import Mathlib

/-!
Shallow embedding of the text-chunking core of `document-ingestion.py`
(`_iter_paragraphs`, `chunk_text`, `make_doc_id`) and of the empty-text
guard of `ragengine_ingest_adapter.ingest_raw_text`.

Strings are modelled as `List Char` (Python strings are sequences of code
points; slicing, `strip`, `split`, `join` and `len` all act on code
points).  Python integer parameters `max_chars` / `overlap_chars` are
modelled as `Nat`, matching the domains the surrounding CLI passes
(`max_chars` positive, `overlap_chars` non-negative).

`chunk_text` contains a `while` loop that does not terminate for some
parameter values (e.g. `max_chars = 0` with a non-empty paragraph), so the
embedding threads explicit fuel and returns `Option`: `none` models a
Python call that never returns.  A lemma below shows the chosen fuel is
sufficient whenever `overlap_chars < max_chars`, i.e. in that regime the
embedding is total and exactly mirrors the source.
-/

/-- The set of code points stripped by Python's `str.strip()` /
recognised by `str.isspace()` (CPython's `Py_UNICODE_ISSPACE` table). -/
def pyWhitespace : List Nat :=
  [0x9, 0xa, 0xb, 0xc, 0xd, 0x1c, 0x1d, 0x1e, 0x1f, 0x20, 0x85, 0xa0,
   0x1680, 0x2000, 0x2001, 0x2002, 0x2003, 0x2004, 0x2005, 0x2006, 0x2007,
   0x2008, 0x2009, 0x200a, 0x2028, 0x2029, 0x202f, 0x205f, 0x3000]

/-- Python's whitespace test, the character class removed by `str.strip()`. -/
def pyIsSpace (c : Char) : Bool :=
  pyWhitespace.contains c.toNat

/-- Python `str.strip()` on a list of code points: drop whitespace from the
left, then from the right. -/
def pyStrip (l : List Char) : List Char :=
  List.rdropWhile pyIsSpace (List.dropWhile pyIsSpace l)

/-- The literal `"\n\n"` separator used throughout `chunk_text`. -/
def NN : List Char := ['\n', '\n']

/-- Python `text.replace("\r\n", "\n")`: replace each non-overlapping
occurrence of `"\r\n"`, scanning left to right. -/
def replaceCRLF : List Char → List Char
  | [] => []
  | [c] => [c]
  | c₁ :: c₂ :: rest =>
    if c₁ = '\r' ∧ c₂ = '\n' then '\n' :: replaceCRLF rest
    else c₁ :: replaceCRLF (c₂ :: rest)

/-- Python `text.replace("\r", "\n")` (single-character replace = map). -/
def replaceCR (l : List Char) : List Char :=
  l.map (fun c => if c = '\r' then '\n' else c)

/-- The newline normalisation in `_iter_paragraphs`:
`text.replace("\r\n", "\n").replace("\r", "\n")`. -/
def normalizeNewlines (l : List Char) : List Char :=
  replaceCR (replaceCRLF l)

/-- Python `t.split("\n\n")`: split on each non-overlapping occurrence of
the double newline, scanning left to right; adjacent separators yield empty
pieces and the result is never the empty list. -/
def splitOnNN : List Char → List (List Char)
  | [] => [[]]
  | [c] => [[c]]
  | c₁ :: c₂ :: rest =>
    if c₁ = '\n' ∧ c₂ = '\n' then [] :: splitOnNN rest
    else
      match splitOnNN (c₂ :: rest) with
      | [] => [[c₁]]
      | p :: ps => (c₁ :: p) :: ps

/-- `_iter_paragraphs`: normalise newlines, split on blank lines, strip each
piece, and keep only the non-empty pieces (in order). -/
def iterParagraphs (text : List Char) : List (List Char) :=
  ((splitOnNN (normalizeNewlines text)).map pyStrip).filter (fun p => ! p.isEmpty)

/-- Python `"\n\n".join(bufs)`. -/
def joinNN : List (List Char) → List Char
  | [] => []
  | [p] => p
  | p :: q :: rest => p ++ NN ++ joinNN (q :: rest)

/-- The `flush_buf` closure of `chunk_text`: if the paragraph buffer is
non-empty, append the stripped double-newline join of the buffer as one
chunk (the buffer itself is reset by the callers below). -/
def flushBuf (chunks buf : List (List Char)) : List (List Char) :=
  if buf.isEmpty then chunks else chunks ++ [pyStrip (joinNN buf)]

/-- The hard-split `while` loop of `chunk_text`:

    start = 0
    while start < len(para):
        end = min(start + max_chars, len(para))
        piece = para[start:end].strip()
        if piece: chunks.append(piece)
        if end >= len(para): break
        start = max(0, end - overlap_chars)

modelled with explicit fuel; `none` means the fuel ran out, i.e. the Python
loop has not terminated within that many iterations.  `Nat` subtraction
already realises the `max(0, end - overlap_chars)` clamp. -/
def hardSplitGo (para : List Char) (maxChars overlapChars : Nat) :
    Nat → Nat → List (List Char) → Option (List (List Char))
  | _, 0, _ => none
  | start, fuel + 1, acc =>
    if start < para.length then
      let e := min (start + maxChars) para.length
      let piece := pyStrip ((para.drop start).take (e - start))
      let acc' := if piece.isEmpty then acc else acc ++ [piece]
      if para.length ≤ e then some acc'
      else hardSplitGo para maxChars overlapChars (e - overlapChars) fuel acc'
    else some acc

/-- Hard split of one over-long paragraph, with fuel `len(para) + 1`
(shown sufficient below whenever `overlap_chars < max_chars`). -/
def hardSplit (para : List Char) (maxChars overlapChars : Nat) :
    Option (List (List Char)) :=
  hardSplitGo para maxChars overlapChars 0 (para.length + 1) []

/-- The paragraph loop of `chunk_text`, carrying the state
`(chunks, buf, buf_len)`.  A paragraph longer than `max_chars` flushes the
buffer and is hard-split; otherwise it is appended to the buffer when it
fits (`buf_len + extra <= max_chars`, where `extra` accounts for the
`"\n\n"` separator), and flushes the buffer and starts a fresh one when it
does not. -/
def processParas (maxChars overlapChars : Nat) :
    List (List Char) → List (List Char) → List (List Char) → Nat →
    Option (List (List Char) × List (List Char) × Nat)
  | [], chunks, buf, bufLen => some (chunks, buf, bufLen)
  | para :: rest, chunks, buf, bufLen =>
    if maxChars < para.length then
      match hardSplit para maxChars overlapChars with
      | none => none
      | some pieces => processParas maxChars overlapChars rest (flushBuf chunks buf ++ pieces) [] 0
    else
      let extra := (if buf.isEmpty then 0 else 2) + para.length
      if bufLen + extra ≤ maxChars then
        processParas maxChars overlapChars rest chunks (buf ++ [para]) (bufLen + extra)
      else
        processParas maxChars overlapChars rest (flushBuf chunks buf) [para] para.length

/-- `c[-overlap_chars:] if len(c) > overlap_chars else c`: the tail of a
chunk kept as the next chunk's soft-overlap prefix. -/
def tailOf (overlapChars : Nat) (c : List Char) : List Char :=
  if overlapChars < c.length then c.drop (c.length - overlapChars) else c

/-- The body of the soft-overlap `for` loop: each chunk with a non-empty
`prev_tail` becomes `(prev_tail + "\n\n" + c).strip()`, and the tail for
the next iteration is taken from the chunk `c` as it was before this
transformation. -/
def overlapGo (overlapChars : Nat) : List Char → List (List Char) → List (List Char)
  | _, [] => []
  | prevTail, c :: rest =>
    let out := if prevTail.isEmpty then c else pyStrip (prevTail ++ NN ++ c)
    out :: overlapGo overlapChars (tailOf overlapChars c) rest

/-- The soft-overlap pass of `chunk_text`: applied only when
`overlap_chars > 0` and more than one chunk resulted. -/
def applyOverlap (overlapChars : Nat) (chunks : List (List Char)) : List (List Char) :=
  if 0 < overlapChars then
    if 1 < chunks.length then overlapGo overlapChars [] chunks else chunks
  else chunks

/-- `chunk_text(text, max_chars=..., overlap_chars=...)`.  `none` models a
call that never returns (the hard-split loop making no progress). -/
def chunkText (text : List Char) (maxChars overlapChars : Nat) :
    Option (List (List Char)) :=
  match processParas maxChars overlapChars (iterParagraphs text) [] [] 0 with
  | none => none
  | some (chunks, buf, _) =>
    some ((applyOverlap overlapChars (flushBuf chunks buf)).filter
      (fun c => ! (pyStrip c).isEmpty))

/-- The chunk list of `chunk_text` as it stands after the final
`flush_buf()` and before the soft-overlap pass — the "original
(pre-overlap) chunks" the specification's overlap rule refers to. -/
def chunkTextPre (text : List Char) (maxChars overlapChars : Nat) :
    Option (List (List Char)) :=
  match processParas maxChars overlapChars (iterParagraphs text) [] [] 0 with
  | none => none
  | some (chunks, buf, _) => some (flushBuf chunks buf)

/-- A string is *good* when it is fixed by `strip` and non-empty — the shape
of every paragraph `_iter_paragraphs` yields and of every chunk
`chunk_text` manipulates. -/
def Good (c : List Char) : Prop := pyStrip c = c ∧ c ≠ []

theorem pyStrip_nil : pyStrip [] = [] := rfl

theorem pyStrip_isPrefixSuffix (l : List Char) :
    ∃ m, pyStrip l <+: m ∧ m <:+ l := by
  refine ⟨List.dropWhile pyIsSpace l, ?_, List.dropWhile_suffix pyIsSpace⟩
  exact List.rdropWhile_prefix pyIsSpace (List.dropWhile pyIsSpace l)

theorem pyStrip_length_le (l : List Char) : (pyStrip l).length ≤ l.length := by
  obtain ⟨m, h1, h2⟩ := pyStrip_isPrefixSuffix l
  exact le_trans h1.length_le h2.length_le

theorem pyStrip_sublist (l : List Char) : pyStrip l <:+: l := by
  obtain ⟨m, h1, h2⟩ := pyStrip_isPrefixSuffix l
  exact List.IsInfix.trans h1.isInfix h2.isInfix

theorem dropWhile_eq_self_of_head {l : List Char}
    (h : ∀ hl : l ≠ [], ¬ pyIsSpace (l.head hl)) :
    List.dropWhile pyIsSpace l = l := by
  cases l with
  | nil => rfl
  | cons a t =>
    have := h (by simp)
    simp only [List.head_cons] at this
    simp [List.dropWhile, this]

theorem dropWhile_eq_self_head {a : Char} {t : List Char}
    (h : List.dropWhile pyIsSpace (a :: t) = a :: t) : pyIsSpace a = false := by
  by_cases hsp : pyIsSpace a
  · rw [List.dropWhile_cons_of_pos hsp] at h
    have hlen := congrArg List.length h
    have hle : (List.dropWhile pyIsSpace t).length ≤ t.length :=
      (List.dropWhile_suffix pyIsSpace).length_le
    simp at hlen
    omega
  · simpa using hsp

theorem pyStrip_idem (l : List Char) : pyStrip (pyStrip l) = pyStrip l := by
  unfold pyStrip
  rcases hz : List.rdropWhile pyIsSpace (List.dropWhile pyIsSpace l) with _ | ⟨a, t⟩
  · rfl
  · have hpre : (a :: t) <+: List.dropWhile pyIsSpace l := by
      rw [← hz]; exact List.rdropWhile_prefix pyIsSpace _
    obtain ⟨r, hr⟩ := hpre
    have hdwne : List.dropWhile pyIsSpace l ≠ [] := by
      rw [← hr]; simp
    have hfalse : pyIsSpace ((List.dropWhile pyIsSpace l).head hdwne) = false :=
      List.head_dropWhile_not pyIsSpace l hdwne
    have h1 : (List.dropWhile pyIsSpace l).head? = some a := by
      rw [← hr]; simp
    have h2 : (List.dropWhile pyIsSpace l).head? =
        some ((List.dropWhile pyIsSpace l).head hdwne) := List.head?_eq_head hdwne
    have h3 : pyIsSpace a = false := by
      rw [h1] at h2
      rw [← Option.some_inj.mp h2] at hfalse
      exact hfalse
    have hdropself : List.dropWhile pyIsSpace (a :: t) = a :: t := by
      apply dropWhile_eq_self_of_head
      intro _
      simp [h3]
    have h4 := List.rdropWhile_idempotent (p := pyIsSpace)
      (l := List.dropWhile pyIsSpace l)
    rw [hz] at h4
    rw [hdropself, h4]

theorem good_head_last {c : List Char} (hg : Good c) (hne : c ≠ []) :
    ¬ pyIsSpace (c.head hne) ∧ ¬ pyIsSpace (c.getLast hne) := by
  obtain ⟨hs, -⟩ := hg
  have hdw : List.dropWhile pyIsSpace c = c := by
    have hlen1 : (List.dropWhile pyIsSpace c).length ≤ c.length :=
      (List.dropWhile_suffix pyIsSpace).length_le
    have hlen2 : (pyStrip c).length ≤ (List.dropWhile pyIsSpace c).length :=
      ( List.rdropWhile_prefix pyIsSpace (List.dropWhile pyIsSpace c)).length_le
    rw [hs] at hlen2
    exact (List.dropWhile_suffix pyIsSpace).eq_of_length (le_antisymm hlen1 hlen2)
  have hrdw : List.rdropWhile pyIsSpace c = c := by
    have : pyStrip c = List.rdropWhile pyIsSpace c := by
      unfold pyStrip; rw [hdw]
    rw [← this, hs]
  constructor
  · rcases c with _ | ⟨a, t⟩
    · exact absurd rfl hne
    · have := dropWhile_eq_self_head hdw
      simpa using this
  · exact fun hsp => (List.rdropWhile_eq_self_iff.mp hrdw hne) hsp

theorem strip_eq_self_of_ends {l : List Char} (hne : l ≠ [])
    (hh : ¬ pyIsSpace (l.head hne)) (hl : ¬ pyIsSpace (l.getLast hne)) :
    pyStrip l = l := by
  unfold pyStrip
  rw [dropWhile_eq_self_of_head (fun _ => hh)]
  exact List.rdropWhile_eq_self_iff.mpr (fun _ => hl)

theorem good_append {p q : List Char} (mid : List Char) (hp : Good p) (hq : Good q) :
    Good (p ++ mid ++ q) := by
  have hne : p ++ mid ++ q ≠ [] := by
    intro h
    rw [List.append_assoc, List.append_eq_nil] at h
    exact hp.2 h.1
  refine ⟨?_, hne⟩
  have hpne := hp.2
  have hqne := hq.2
  apply strip_eq_self_of_ends hne
  · have h1 : (p ++ mid ++ q).head? = p.head? := by
      rw [List.append_assoc]
      exact List.head?_append_of_ne_nil _ hpne
    have h2 := List.head?_eq_head hne
    have h3 := List.head?_eq_head hpne
    rw [h2, h3] at h1
    have := (good_head_last hp hpne).1
    rwa [Option.some_inj.mp h1]
  · have h1 : (p ++ mid ++ q).getLast? = q.getLast? := List.getLast?_append_of_ne_nil _ hqne
    have h2 := List.getLast?_eq_getLast _ hne
    have h3 := List.getLast?_eq_getLast _ hqne
    rw [h2, h3] at h1
    have := (good_head_last hq hqne).2
    rwa [Option.some_inj.mp h1]

theorem pyStrip_ne_nil_of_witness {l : List Char} (a : Char) (ha : a ∈ l)
    (hns : ¬ pyIsSpace a) : pyStrip l ≠ [] := by
  unfold pyStrip
  intro hnil
  have hall := List.rdropWhile_eq_nil_iff.mp hnil
  have hdw : List.dropWhile pyIsSpace l ≠ [] := by
    intro hnil2
    exact hns (List.dropWhile_eq_nil_iff.mp hnil2 a ha)
  have hhead := List.head_dropWhile_not pyIsSpace l hdw
  exact absurd (hall _ (List.head_mem hdw)) (by simp [hhead])

theorem good_pyStrip_of_witness {l : List Char} (a : Char) (ha : a ∈ l)
    (hns : ¬ pyIsSpace a) : Good (pyStrip l) :=
  ⟨pyStrip_idem l, pyStrip_ne_nil_of_witness a ha hns⟩

theorem joinNN_cons (p q : List Char) (rest : List (List Char)) :
    joinNN (p :: q :: rest) = p ++ NN ++ joinNN (q :: rest) := rfl

theorem joinNN_append_single : ∀ (l : List (List Char)) (p : List Char),
    joinNN (l ++ [p]) = if l.isEmpty then p else joinNN l ++ NN ++ p
  | [], p => rfl
  | [a], p => rfl
  | a :: b :: u, p => by
    have ih := joinNN_append_single (b :: u) p
    have h1 : joinNN ((a :: b :: u) ++ [p]) = a ++ NN ++ joinNN ((b :: u) ++ [p]) := rfl
    rw [h1, ih]
    simp [joinNN, List.append_assoc]

theorem good_joinNN {buf : List (List Char)} (h : ∀ p ∈ buf, Good p)
    (hne : buf ≠ []) : Good (joinNN buf) := by
  induction buf with
  | nil => exact absurd rfl hne
  | cons a t ih =>
    cases t with
    | nil => exact h a (by simp)
    | cons b u =>
      have hg : Good (joinNN (b :: u)) :=
        ih (fun p hp => h p (by simp [hp])) (by simp)
      have ha : Good a := h a (by simp)
      rw [joinNN_cons]
      exact good_append NN ha hg

theorem iterParagraphs_good (t : List Char) : ∀ p ∈ iterParagraphs t, Good p := by
  intro p hp
  unfold iterParagraphs at hp
  rw [List.mem_filter] at hp
  obtain ⟨hmem, hne⟩ := hp
  rw [List.mem_map] at hmem
  obtain ⟨q, _, rfl⟩ := hmem
  refine ⟨pyStrip_idem q, ?_⟩
  simpa [List.isEmpty_iff] using hne

/-- A pre-overlap chunk: stripped, non-empty, within the character budget. -/
def GoodChunk (maxChars : Nat) (c : List Char) : Prop :=
  pyStrip c = c ∧ c ≠ [] ∧ c.length ≤ maxChars

theorem hardSplitGo_good (para : List Char) (maxChars overlapChars : Nat) :
    ∀ fuel start acc out,
      (∀ c ∈ acc, GoodChunk maxChars c) →
      hardSplitGo para maxChars overlapChars start fuel acc = some out →
      ∀ c ∈ out, GoodChunk maxChars c := by
  intro fuel
  induction fuel with
  | zero =>
    intro start acc out hacc h
    exact absurd h (by simp [hardSplitGo])
  | succ f ih =>
    intro start acc out hacc h
    simp only [hardSplitGo] at h
    by_cases hs : start < para.length
    · rw [if_pos hs] at h
      have hacc' : ∀ c ∈ (if (pyStrip ((para.drop start).take
          (min (start + maxChars) para.length - start))).isEmpty then acc
          else acc ++ [pyStrip ((para.drop start).take
            (min (start + maxChars) para.length - start))]),
          GoodChunk maxChars c := by
        split
        · exact hacc
        · intro c hc
          rw [List.mem_append] at hc
          rcases hc with hc | hc
          · exact hacc c hc
          · rw [List.mem_singleton] at hc
            subst hc
            refine ⟨pyStrip_idem _, ?_, ?_⟩
            · intro hnil
              simp_all [List.isEmpty_iff]
            · calc (pyStrip ((para.drop start).take
                    (min (start + maxChars) para.length - start))).length
                  ≤ ((para.drop start).take
                    (min (start + maxChars) para.length - start)).length :=
                    pyStrip_length_le _
                _ ≤ min (start + maxChars) para.length - start := List.length_take_le _ _
                _ ≤ maxChars := by omega
      by_cases he : para.length ≤ min (start + maxChars) para.length
      · rw [if_pos he] at h
        rw [Option.some_inj] at h
        subst h
        exact hacc'
      · rw [if_neg he] at h
        exact ih _ _ _ hacc' h
    · rw [if_neg hs] at h
      rw [Option.some_inj] at h
      subst h
      exact hacc

theorem flushBuf_good {maxChars : Nat} {chunks buf : List (List Char)} {bufLen : Nat}
    (hch : ∀ c ∈ chunks, GoodChunk maxChars c) (hbuf : ∀ p ∈ buf, Good p)
    (hlen : bufLen = (joinNN buf).length) (hbound : buf ≠ [] → bufLen ≤ maxChars) :
    ∀ c ∈ flushBuf chunks buf, GoodChunk maxChars c := by
  intro c hc
  unfold flushBuf at hc
  by_cases hb : buf.isEmpty
  · rw [if_pos hb] at hc
    exact hch c hc
  · rw [if_neg hb] at hc
    rw [List.mem_append] at hc
    rcases hc with hc | hc
    · exact hch c hc
    · rw [List.mem_singleton] at hc
      subst hc
      have hbne : buf ≠ [] := by simpa [List.isEmpty_iff] using hb
      have hg := good_joinNN hbuf hbne
      rw [hg.1]
      exact ⟨hg.1, hg.2, by rw [← hlen]; exact hbound hbne⟩

theorem processParas_good (maxChars overlapChars : Nat) :
    ∀ paras chunks buf bufLen out,
      (∀ p ∈ paras, Good p) →
      (∀ c ∈ chunks, GoodChunk maxChars c) →
      (∀ p ∈ buf, Good p) →
      bufLen = (joinNN buf).length →
      (buf ≠ [] → bufLen ≤ maxChars) →
      processParas maxChars overlapChars paras chunks buf bufLen = some out →
      (∀ c ∈ out.1, GoodChunk maxChars c) ∧ (∀ p ∈ out.2.1, Good p) ∧
      out.2.2 = (joinNN out.2.1).length ∧ (out.2.1 ≠ [] → out.2.2 ≤ maxChars) := by
  intro paras
  induction paras with
  | nil =>
    intro chunks buf bufLen out hp hch hbuf hlen hbound h
    simp only [processParas, Option.some_inj] at h
    subst h
    exact ⟨hch, hbuf, hlen, hbound⟩
  | cons para rest ih =>
    intro chunks buf bufLen out hp hch hbuf hlen hbound h
    have hpara : Good para := hp para (by simp)
    have hrest : ∀ p ∈ rest, Good p := fun p hmem => hp p (by simp [hmem])
    simp only [processParas] at h
    by_cases hlong : maxChars < para.length
    · rw [if_pos hlong] at h
      rcases hhs : hardSplit para maxChars overlapChars with _ | pieces
      · rw [hhs] at h; exact absurd h (by simp)
      · rw [hhs] at h
        have hpieces : ∀ c ∈ pieces, GoodChunk maxChars c :=
          hardSplitGo_good para maxChars overlapChars _ _ _ _ (by simp) hhs
        have hch' : ∀ c ∈ flushBuf chunks buf ++ pieces, GoodChunk maxChars c := by
          intro c hc
          rw [List.mem_append] at hc
          rcases hc with hc | hc
          · exact flushBuf_good hch hbuf hlen hbound c hc
          · exact hpieces c hc
        exact ih _ _ _ _ hrest hch' (by simp) (by simp [joinNN]) (by simp) h
    · rw [if_neg hlong] at h
      by_cases hfits : bufLen + ((if buf.isEmpty then 0 else 2) + para.length) ≤ maxChars
      · rw [if_pos hfits] at h
        have hbuf' : ∀ p ∈ buf ++ [para], Good p := by
          intro p hmem
          rw [List.mem_append] at hmem
          rcases hmem with hmem | hmem
          · exact hbuf p hmem
          · rw [List.mem_singleton] at hmem; subst hmem; exact hpara
        have hlen' : bufLen + ((if buf.isEmpty then 0 else 2) + para.length) =
            (joinNN (buf ++ [para])).length := by
          rw [joinNN_append_single]
          by_cases hb : buf.isEmpty
          · have : buf = [] := by simpa [List.isEmpty_iff] using hb
            subst this
            simp [joinNN] at hlen
            simp [hb, hlen, joinNN]
          · rw [if_neg hb]
            simp [List.length_append, NN, hlen, hb]
            omega
        have hbound' : buf ++ [para] ≠ [] →
            bufLen + ((if buf.isEmpty then 0 else 2) + para.length) ≤ maxChars :=
          fun _ => hfits
        exact ih chunks (buf ++ [para]) _ out hrest hch hbuf' hlen' hbound' h
      · rw [if_neg hfits] at h
        have hch' : ∀ c ∈ flushBuf chunks buf, GoodChunk maxChars c :=
          flushBuf_good hch hbuf hlen hbound
        have hbuf' : ∀ p ∈ [para], Good p := by
          intro p hmem
          rw [List.mem_singleton] at hmem
          subst hmem
          exact hpara
        exact ih (flushBuf chunks buf) [para] para.length out hrest hch' hbuf'
          (by simp [joinNN]) (fun _ => by omega) h

theorem overlapGo_good (overlapChars : Nat) :
    ∀ l prevTail, (∀ c ∈ l, Good c) →
      ∀ c ∈ overlapGo overlapChars prevTail l, Good c := by
  intro l
  induction l with
  | nil => simp [overlapGo]
  | cons a t ih =>
    intro prevTail hl c hc
    simp only [overlapGo] at hc
    have ha : Good a := hl a (by simp)
    rw [List.mem_cons] at hc
    rcases hc with hc | hc
    · subst hc
      by_cases hp : prevTail.isEmpty
      · rw [if_pos hp]; exact ha
      · rw [if_neg hp]
        rcases ha with ⟨has, hane⟩
        cases a with
        | nil => exact absurd rfl hane
        | cons x xs =>
          have hxns : ¬ pyIsSpace x := by
            have h0 := (good_head_last ⟨has, hane⟩ hane).1
            simpa using h0
          exact good_pyStrip_of_witness x (by simp) hxns
    · exact ih (tailOf overlapChars a) (fun d hd => hl d (by simp [hd])) c hc

theorem overlapGo_length (overlapChars : Nat) :
    ∀ l prevTail, (overlapGo overlapChars prevTail l).length = l.length := by
  intro l
  induction l with
  | nil => simp [overlapGo]
  | cons a t ih => intro prevTail; simp [overlapGo, ih]

theorem applyOverlap_good {overlapChars : Nat} {chunks : List (List Char)}
    (h : ∀ c ∈ chunks, Good c) : ∀ c ∈ applyOverlap overlapChars chunks, Good c := by
  unfold applyOverlap
  split
  · split
    · exact overlapGo_good overlapChars chunks [] h
    · exact h
  · exact h

theorem filter_strip_eq {l : List (List Char)} (h : ∀ c ∈ l, Good c) :
    l.filter (fun c => ! (pyStrip c).isEmpty) = l :=
  List.filter_eq_self.mpr (fun c hc => by
    have hg := h c hc
    rw [hg.1]
    simpa [List.isEmpty_iff] using hg.2)

theorem chunkText_elim {t : List Char} {maxChars overlapChars : Nat}
    {cs : List (List Char)} (h : chunkText t maxChars overlapChars = some cs) :
    ∃ st, processParas maxChars overlapChars (iterParagraphs t) [] [] 0 = some st ∧
      cs = (applyOverlap overlapChars (flushBuf st.1 st.2.1)).filter
        (fun c => ! (pyStrip c).isEmpty) := by
  unfold chunkText at h
  rcases hp : processParas maxChars overlapChars (iterParagraphs t) [] [] 0 with _ | ⟨⟨chunks, buf, bl⟩⟩
  · rw [hp] at h; exact absurd h (by simp)
  · rw [hp] at h
    simp only [Option.some_inj] at h
    exact ⟨(chunks, buf, bl), rfl, h.symm⟩

theorem hardSplitGo_some (para : List Char) (maxChars overlapChars : Nat)
    (hovl : overlapChars < maxChars) :
    ∀ fuel start acc, para.length - start < fuel →
      (hardSplitGo para maxChars overlapChars start fuel acc).isSome := by
  intro fuel
  induction fuel with
  | zero => intro start acc hfuel; omega
  | succ f ih =>
    intro start acc hfuel
    simp only [hardSplitGo]
    by_cases hs : start < para.length
    · rw [if_pos hs]
      by_cases he : para.length ≤ min (start + maxChars) para.length
      · rw [if_pos he]; simp
      · rw [if_neg he]
        apply ih
        omega
    · rw [if_neg hs]; simp

theorem hardSplit_some (para : List Char) (maxChars overlapChars : Nat)
    (hovl : overlapChars < maxChars) : (hardSplit para maxChars overlapChars).isSome :=
  hardSplitGo_some para maxChars overlapChars hovl (para.length + 1) 0 [] (by omega)

theorem processParas_some (maxChars overlapChars : Nat)
    (hovl : overlapChars < maxChars) :
    ∀ paras chunks buf bufLen,
      (processParas maxChars overlapChars paras chunks buf bufLen).isSome := by
  intro paras
  induction paras with
  | nil => intro chunks buf bufLen; simp [processParas]
  | cons para rest ih =>
    intro chunks buf bufLen
    simp only [processParas]
    by_cases hlong : maxChars < para.length
    · rw [if_pos hlong]
      rcases hhs : hardSplit para maxChars overlapChars with _ | pieces
      · have := hardSplit_some para maxChars overlapChars hovl
        rw [hhs] at this
        simp at this
      · exact ih _ _ _
    · rw [if_neg hlong]
      by_cases hfits : bufLen + ((if buf.isEmpty then 0 else 2) + para.length) ≤ maxChars
      · rw [if_pos hfits]; exact ih _ _ _
      · rw [if_neg hfits]; exact ih _ _ _

theorem chunkTextPre_elim {text : List Char} {maxChars overlapChars : Nat}
    {pre : List (List Char)}
    (h : chunkTextPre text maxChars overlapChars = some pre) :
    ∃ st, processParas maxChars overlapChars (iterParagraphs text) [] [] 0 = some st ∧
      flushBuf st.1 st.2.1 = pre := by
  unfold chunkTextPre at h
  rcases hp : processParas maxChars overlapChars (iterParagraphs text) [] [] 0 with _ | ⟨⟨chunks, buf, bl⟩⟩
  · rw [hp] at h; exact absurd h (by simp)
  · rw [hp] at h
    simp only [Option.some_inj] at h
    exact ⟨(chunks, buf, bl), rfl, h⟩

theorem chunkTextPre_good {text : List Char} {maxChars overlapChars : Nat}
    {pre : List (List Char)}
    (h : chunkTextPre text maxChars overlapChars = some pre) :
    ∀ c ∈ pre, GoodChunk maxChars c := by
  obtain ⟨st, hst, hflush⟩ := chunkTextPre_elim h
  obtain ⟨hch, hbuf, hlen, hbound⟩ := processParas_good maxChars overlapChars
    (iterParagraphs text) [] [] 0 st (iterParagraphs_good text)
    (by simp) (by simp) (by simp [joinNN]) (by simp) hst
  rw [← hflush]
  exact flushBuf_good hch hbuf hlen hbound

theorem chunkText_eq_applyOverlap {text : List Char} {maxChars overlapChars : Nat}
    {pre : List (List Char)}
    (h : chunkTextPre text maxChars overlapChars = some pre) :
    chunkText text maxChars overlapChars =
      some ((applyOverlap overlapChars pre).filter (fun c => ! (pyStrip c).isEmpty)) := by
  obtain ⟨⟨chunks, buf, bl⟩, hst, hflush⟩ := chunkTextPre_elim h
  simp only at hflush
  unfold chunkText
  rw [hst]
  simp only [hflush]

theorem chunkText_of_pre {text : List Char} {maxChars overlapChars : Nat}
    {pre : List (List Char)}
    (h : chunkTextPre text maxChars overlapChars = some pre) :
    chunkText text maxChars overlapChars = some (applyOverlap overlapChars pre) := by
  rw [chunkText_eq_applyOverlap h]
  rw [filter_strip_eq (applyOverlap_good (fun c hc =>
    (by exact ⟨(chunkTextPre_good h c hc).1, (chunkTextPre_good h c hc).2.1⟩)))]

theorem overlapGo_getD_zero (overlapChars : Nat) (c : List Char)
    (rest : List (List Char)) :
    (overlapGo overlapChars [] (c :: rest)).getD 0 [] = c := by
  simp [overlapGo]

theorem overlapGo_getD_succ (overlapChars : Nat) :
    ∀ (l : List (List Char)) (prevTail : List Char) (i : Nat), i + 1 < l.length →
      (overlapGo overlapChars prevTail l).getD (i + 1) [] =
        if (tailOf overlapChars (l.getD i [])).isEmpty then l.getD (i + 1) []
        else pyStrip (tailOf overlapChars (l.getD i []) ++ NN ++ l.getD (i + 1) []) := by
  intro l
  induction l with
  | nil => intro prevTail i h; simp at h
  | cons c rest ih =>
    intro prevTail i h
    cases i with
    | zero =>
      cases rest with
      | nil => simp at h
      | cons d rest' => simp [overlapGo]
    | succ j =>
      have hj : j + 1 < rest.length := by simpa using h
      have := ih (tailOf overlapChars c) j hj
      simpa [overlapGo] using this

theorem tailOf_ne_nil {overlapChars : Nat} {c : List Char} (hovl : 0 < overlapChars)
    (hc : c ≠ []) : tailOf overlapChars c ≠ [] := by
  unfold tailOf
  split
  · intro h
    have hlen := congrArg List.length h
    simp [List.length_drop] at hlen
    omega
  · exact hc

theorem chunkText_eq_pre_map (text : List Char) (maxChars overlapChars : Nat) :
    chunkText text maxChars overlapChars =
      (chunkTextPre text maxChars overlapChars).map
        (fun pre => (applyOverlap overlapChars pre).filter (fun c => ! (pyStrip c).isEmpty)) := by
  unfold chunkText chunkTextPre
  rcases hp : processParas maxChars overlapChars (iterParagraphs text) [] [] 0 with _ | ⟨⟨chunks, buf, bl⟩⟩
  · rfl
  · rfl

theorem chunkText_some_pre {text : List Char} {maxChars overlapChars : Nat}
    {cs : List (List Char)} (h : chunkText text maxChars overlapChars = some cs) :
    ∃ pre, chunkTextPre text maxChars overlapChars = some pre ∧
      cs = applyOverlap overlapChars pre := by
  rw [chunkText_eq_pre_map] at h
  rw [Option.map_eq_some'] at h
  obtain ⟨pre, hpre, hcs⟩ := h
  have hg : ∀ c ∈ applyOverlap overlapChars pre, Good c :=
    applyOverlap_good (fun c hc =>
      ⟨(chunkTextPre_good hpre c hc).1, (chunkTextPre_good hpre c hc).2.1⟩)
  exact ⟨pre, hpre, by rw [← hcs, filter_strip_eq hg]⟩

/-- C5: for every input text and all parameters with `max_chars > 0` and
`0 ≤ overlap_chars < max_chars`, `chunk_text` terminates (each hard-split
slice advances the start by `max_chars - overlap_chars ≥ 1` and the loop
stops at the end of the paragraph, so the fuelled embedding returns a
value). -/
theorem c5_chunkText_terminates (text : List Char) (maxChars overlapChars : Nat)
    (hmax : 0 < maxChars) (hovl : overlapChars < maxChars) :
    (chunkText text maxChars overlapChars).isSome := by
  unfold chunkText
  rcases hp : processParas maxChars overlapChars (iterParagraphs text) [] [] 0 with _ | ⟨⟨chunks, buf, bl⟩⟩
  · have h := processParas_some maxChars overlapChars hovl (iterParagraphs text) [] [] 0
    rw [hp] at h
    simp at h
  · simp

/-- Witness for C5 at a concrete input. -/
theorem c5_witness :
    0 < 2 ∧ 1 < 2 ∧ (chunkText ['a'] 2 1).isSome :=
  ⟨by decide, by decide, c5_chunkText_terminates ['a'] 2 1 (by decide) (by decide)⟩

/-- C8: the empty input string yields zero chunks, for every value of
`max_chars` and `overlap_chars`. -/
theorem c8_chunkText_empty (maxChars overlapChars : Nat) :
    chunkText [] maxChars overlapChars = some [] := by
  have h1 : iterParagraphs [] = [] := rfl
  unfold chunkText
  rw [h1]
  simp [processParas, flushBuf, applyOverlap]

/-- C9: with `max_chars > 0` and `0 ≤ overlap_chars < max_chars`, every
string in the returned chunk list is non-empty after trimming and carries
no leading or trailing whitespace (`c == c.strip()`). -/
theorem c9_chunkText_stripped_nonempty (text : List Char) (maxChars overlapChars : Nat)
    (hmax : 0 < maxChars) (hovl : overlapChars < maxChars)
    (cs : List (List Char)) (h : chunkText text maxChars overlapChars = some cs) :
    ∀ c ∈ cs, pyStrip c = c ∧ pyStrip c ≠ [] := by
  obtain ⟨pre, hpre, rfl⟩ := chunkText_some_pre h
  intro c hc
  have hg : Good c :=
    applyOverlap_good (fun d hd =>
      ⟨(chunkTextPre_good hpre d hd).1, (chunkTextPre_good hpre d hd).2.1⟩) c hc
  refine ⟨hg.1, ?_⟩
  rw [hg.1]
  exact hg.2

/-- Witness for C9 at a concrete input. -/
theorem c9_witness :
    0 < 2 ∧ 1 < 2 ∧ chunkText ['a'] 2 1 = some [['a']] ∧
      (pyStrip ['a'] = ['a'] ∧ pyStrip ['a'] ≠ []) :=
  ⟨by decide, by decide, by decide,
    c9_chunkText_stripped_nonempty ['a'] 2 1 (by decide) (by decide) [['a']]
      (by decide) ['a'] (by decide)⟩

/-- C3: with `max_chars > 0`, every chunk emitted by `chunk_text` has
trimmed length at most `max_chars`, except that a non-first chunk may
exceed it when `overlap_chars > 0` (the soft-overlap prefix); in
particular, with `overlap_chars = 0` every returned string has length at
most `max_chars`. -/
theorem c3_chunkText_length_bound (text : List Char) (maxChars overlapChars : Nat)
    (hmax : 0 < maxChars) (cs : List (List Char))
    (h : chunkText text maxChars overlapChars = some cs) :
    (∀ i, i < cs.length →
      (pyStrip (cs.getD i [])).length ≤ maxChars ∨ (0 < overlapChars ∧ 0 < i)) ∧
    (overlapChars = 0 → ∀ c ∈ cs, c.length ≤ maxChars) := by
  obtain ⟨pre, hpre, rfl⟩ := chunkText_some_pre h
  have hgood := chunkTextPre_good hpre
  constructor
  · intro i hi
    simp only [applyOverlap] at hi ⊢
    by_cases hovl : 0 < overlapChars
    · rw [if_pos hovl] at hi ⊢
      by_cases hlen : 1 < pre.length
      · rw [if_pos hlen] at hi ⊢
        cases i with
        | zero =>
          left
          cases pre with
          | nil => simp at hlen
          | cons c rest =>
            rw [overlapGo_getD_zero]
            obtain ⟨hs, hne, hbound⟩ := hgood c (by simp)
            rw [hs]
            exact hbound
        | succ j => exact Or.inr ⟨hovl, Nat.succ_pos j⟩
      · rw [if_neg hlen] at hi ⊢
        left
        have hmem : pre.getD i [] ∈ pre := by
          rw [List.getD_eq_getElem pre [] hi]
          exact List.getElem_mem hi
        obtain ⟨hs, hne, hbound⟩ := hgood _ hmem
        rw [hs]
        exact hbound
    · rw [if_neg hovl] at hi ⊢
      left
      have hmem : pre.getD i [] ∈ pre := by
        rw [List.getD_eq_getElem pre [] hi]
        exact List.getElem_mem hi
      obtain ⟨hs, hne, hbound⟩ := hgood _ hmem
      rw [hs]
      exact hbound
  · intro hzero c hc
    rw [hzero] at hc
    simp only [applyOverlap] at hc
    rw [if_neg (by omega : ¬ (0:Nat) < 0)] at hc
    exact (hgood c hc).2.2

/-- Witness for C3 at a concrete input. -/
theorem c3_witness :
    0 < 2 ∧ chunkText ['a'] 2 0 = some [['a']] ∧
      ((∀ i, i < [['a']].length →
        (pyStrip ([['a']].getD i [])).length ≤ 2 ∨ (0 < 0 ∧ 0 < i)) ∧
      (0 = 0 → ∀ c ∈ [['a']], c.length ≤ 2)) :=
  ⟨by decide, by decide,
    c3_chunkText_length_bound ['a'] 2 0 (by decide) [['a']] (by decide)⟩

/-- C4: when `overlap_chars > 0` and the pre-overlap pass produced more
than one chunk, the returned list keeps the first chunk unchanged and every
later chunk `i` equals `strip(tail ++ "\n\n" ++ c_i)` where `tail` is the
trailing `overlap_chars` characters of the *original* chunk `c_(i-1)` (the
whole chunk when it is not longer than `overlap_chars`). -/
theorem c4_chunkText_soft_overlap (text : List Char) (maxChars overlapChars : Nat)
    (pre : List (List Char)) (hovl : 0 < overlapChars)
    (hpre : chunkTextPre text maxChars overlapChars = some pre)
    (hlen : 1 < pre.length) :
    ∃ cs, chunkText text maxChars overlapChars = some cs ∧
      cs.length = pre.length ∧ cs.getD 0 [] = pre.getD 0 [] ∧
      ∀ i, 1 ≤ i → i < pre.length →
        cs.getD i [] =
          pyStrip (tailOf overlapChars (pre.getD (i - 1) []) ++ NN ++ pre.getD i []) := by
  have hgood := chunkTextPre_good hpre
  refine ⟨applyOverlap overlapChars pre, chunkText_of_pre hpre, ?_, ?_, ?_⟩
  · simp only [applyOverlap, if_pos hovl, if_pos hlen]
    exact overlapGo_length overlapChars pre []
  · simp only [applyOverlap, if_pos hovl, if_pos hlen]
    cases pre with
    | nil => simp at hlen
    | cons c rest => exact overlapGo_getD_zero overlapChars c rest
  · intro i h1 hi
    simp only [applyOverlap, if_pos hovl, if_pos hlen]
    obtain ⟨j, rfl⟩ : ∃ j, i = j + 1 := ⟨i - 1, by omega⟩
    rw [overlapGo_getD_succ overlapChars pre [] j hi]
    have hmem : pre.getD j [] ∈ pre := by
      rw [List.getD_eq_getElem pre [] (by omega)]
      exact List.getElem_mem (by omega)
    have htail := tailOf_ne_nil hovl (hgood _ hmem).2.1
    rw [if_neg (by simpa [List.isEmpty_iff] using htail)]
    simp

/-- Witness for C4 at a concrete input (`"a\n\nb"`, `max_chars = 1`,
`overlap_chars = 1`). -/
theorem c4_witness :
    0 < 1 ∧
    chunkTextPre ['a', '\n', '\n', 'b'] 1 1 = some [['a'], ['b']] ∧
    1 < 2 ∧
    ∃ cs, chunkText ['a', '\n', '\n', 'b'] 1 1 = some cs ∧
      cs.length = [[ 'a' ], ['b']].length ∧
      cs.getD 0 [] = [[ 'a' ], ['b']].getD 0 [] ∧
      ∀ i, 1 ≤ i → i < [[ 'a' ], ['b']].length →
        cs.getD i [] =
          pyStrip (tailOf 1 ([[ 'a' ], ['b']].getD (i - 1) []) ++ NN ++
            [[ 'a' ], ['b']].getD i []) :=
  ⟨by decide, by decide, by decide,
    c4_chunkText_soft_overlap ['a', '\n', '\n', 'b'] 1 1 [['a'], ['b']]
      (by decide) (by decide) (by decide)⟩

set_option maxRecDepth 10000 in
/-- Shared evaluation: `chunk_text("X"*150, max_chars=100, overlap_chars=20)`.
The hard split yields `X*100` (indices 0..100) and `X*70` (indices 80..150),
and the soft-overlap pass then rewrites the second chunk to
`"X"*20 + "\n\n" + "X"*70`. -/
theorem chunkText_X150_eval :
    chunkTextPre (List.replicate 150 'X') 100 20 =
      some [List.replicate 100 'X', List.replicate 70 'X'] ∧
    (List.replicate 150 'X').drop 80 = List.replicate 70 'X' ∧
    chunkText (List.replicate 150 'X') 100 20 =
      some [List.replicate 100 'X',
            List.replicate 20 'X' ++ NN ++ List.replicate 70 'X'] := by
  refine ⟨by decide, by decide, by decide⟩

set_option maxRecDepth 10000 in
/-- C1 (counterexample): on `"X"*150` with `max_chars=100`,
`overlap_chars=20`, `chunk_text` does *not* return `["X"*100, "X"*70]` —
the soft-overlap pass also applies to hard-split chunks. -/
theorem c1_counterexample :
    chunkText (List.replicate 150 'X') 100 20 ≠
      some [List.replicate 100 'X', List.replicate 70 'X'] := by decide

/-- C1 (amended): on `"X"*150` with `max_chars=100`, `overlap_chars=20`,
the pre-overlap (hard-split) chunks are exactly `X*100` and `X*70` (the
second slice starting at index 80 and running to 150), and the returned
list is `["X"*100, "X"*20 + "\n\n" + "X"*70]` after the soft-overlap pass
prefixes the second chunk. -/
theorem c1_amended :
    chunkTextPre (List.replicate 150 'X') 100 20 =
      some [List.replicate 100 'X', List.replicate 70 'X'] ∧
    (List.replicate 150 'X').drop 80 = List.replicate 70 'X' ∧
    chunkText (List.replicate 150 'X') 100 20 =
      some [List.replicate 100 'X',
            List.replicate 20 'X' ++ NN ++ List.replicate 70 'X'] :=
  chunkText_X150_eval

theorem hardSplitGo_stuck (overlapChars : Nat) :
    ∀ fuel acc, hardSplitGo ['a'] 0 overlapChars 0 fuel acc = none := by
  intro fuel
  induction fuel with
  | zero => intro acc; rfl
  | succ f ih =>
    intro acc
    simp only [hardSplitGo]
    norm_num
    simpa using ih acc

/-- C2 (code-bug evidence): called with `max_chars = 0` (a non-positive
budget) on the one-character text `"a"`, `chunk_text` raises no
configuration error: its hard-split loop strips an empty slice and leaves
`start = 0` forever, for every `overlap_chars` and any amount of fuel, so
the call never returns. -/
theorem c2_maxzero_diverges :
    (∀ overlapChars fuel acc, hardSplitGo ['a'] 0 overlapChars 0 fuel acc = none) ∧
    (∀ overlapChars, chunkText ['a'] 0 overlapChars = none) := by
  constructor
  · exact fun overlapChars fuel acc => hardSplitGo_stuck overlapChars fuel acc
  · intro overlapChars
    unfold chunkText
    have h1 : iterParagraphs ['a'] = [['a']] := rfl
    rw [h1]
    simp only [processParas]
    rw [if_pos (by decide : (0:Nat) < List.length ['a'])]
    have h2 : hardSplit ['a'] 0 overlapChars = none := hardSplitGo_stuck overlapChars 2 []
    rw [h2]

/-- Decimal digit character, `'0'..'9'` (used for Python `str(int)` of the
chunk index in the f-string of `make_doc_id`). -/
def digitChar (d : Nat) : Char :=
  match d % 10 with
  | 0 => '0' | 1 => '1' | 2 => '2' | 3 => '3' | 4 => '4'
  | 5 => '5' | 6 => '6' | 7 => '7' | 8 => '8' | _ => '9'

/-- Python `str(n)` for a non-negative integer: decimal digits, no leading
zeros, `0 → "0"`. -/
def natChars (n : Nat) : List Char :=
  if _h : n < 10 then [digitChar n]
  else natChars (n / 10) ++ [digitChar (n % 10)]
decreasing_by exact Nat.div_lt_self (by omega) (by omega)

/-- The canonical name string `f"file://{file_abs}#chunk={chunk_index}"`
hashed by `make_doc_id`. -/
def canonicalName (fileAbs : List Char) (chunkIndex : Nat) : List Char :=
  "file://".data ++ (fileAbs ++ ("#chunk=".data ++ natChars chunkIndex))

/-- UTF-8 encoding of one code point (Python `str.encode("utf-8")`,
per-character). -/
def utf8Bytes (c : Char) : List Nat :=
  let n := c.toNat
  if n < 0x80 then [n]
  else if n < 0x800 then [0xC0 + n / 64, 0x80 + n % 64]
  else if n < 0x10000 then [0xE0 + n / 4096, 0x80 + (n / 64) % 64, 0x80 + n % 64]
  else [0xF0 + n / 0x40000, 0x80 + (n / 4096) % 64, 0x80 + (n / 64) % 64, 0x80 + n % 64]

/-- UTF-8 encoding of a string as a byte list. -/
def utf8Encode (l : List Char) : List Nat :=
  (l.map utf8Bytes).flatten

/-- Rotate a 32-bit word left by `k` (operands kept below `2^32`). -/
def rotl32 (x k : Nat) : Nat :=
  ((x <<< k) % 2 ^ 32) ||| (x >>> (32 - k))

/-- Big-endian 4-byte encoding of a 32-bit word. -/
def bigEndian4 (n : Nat) : List Nat :=
  [n / 2 ^ 24 % 256, n / 2 ^ 16 % 256, n / 2 ^ 8 % 256, n % 256]

/-- Big-endian 8-byte encoding of a 64-bit value (the SHA-1 length field). -/
def bigEndian8 (n : Nat) : List Nat :=
  [n / 2 ^ 56 % 256, n / 2 ^ 48 % 256, n / 2 ^ 40 % 256, n / 2 ^ 32 % 256,
   n / 2 ^ 24 % 256, n / 2 ^ 16 % 256, n / 2 ^ 8 % 256, n % 256]

/-- SHA-1 message padding: append `0x80`, zero bytes up to 56 mod 64, then
the bit length as 8 big-endian bytes. -/
def sha1Pad (msg : List Nat) : List Nat :=
  msg ++ [0x80] ++ List.replicate ((119 - msg.length % 64) % 64) 0 ++
    bigEndian8 (msg.length * 8)

/-- Group a byte list into big-endian 32-bit words. -/
def toWords : List Nat → List Nat
  | b0 :: b1 :: b2 :: b3 :: rest =>
    (((b0 * 256 + b1) * 256 + b2) * 256 + b3) :: toWords rest
  | _ => []

/-- Split a byte list into 64-byte blocks. -/
def chunk64 : List Nat → List (List Nat)
  | [] => []
  | x :: xs => ((x :: xs).take 64) :: chunk64 ((x :: xs).drop 64)
termination_by l => l.length
decreasing_by simp [List.length_drop]; omega

/-- Extend the 16 message words by `fuel` further words
(`w[i] = rotl1(w[i-3] ^ w[i-8] ^ w[i-14] ^ w[i-16])`). -/
def extendWords (w : List Nat) : Nat → List Nat
  | 0 => w
  | f + 1 =>
    extendWords (w ++ [rotl32 ((w.getD (w.length - 3) 0) ^^^ (w.getD (w.length - 8) 0) ^^^
      (w.getD (w.length - 14) 0) ^^^ (w.getD (w.length - 16) 0)) 1]) f

/-- The SHA-1 round function for round `t`. -/
def sha1F (t b c d : Nat) : Nat :=
  if t < 20 then (b &&& c) ||| ((b ^^^ 0xFFFFFFFF) &&& d)
  else if t < 40 then b ^^^ c ^^^ d
  else if t < 60 then (b &&& c) ||| (b &&& d) ||| (c &&& d)
  else b ^^^ c ^^^ d

/-- The SHA-1 round constant for round `t`. -/
def sha1K (t : Nat) : Nat :=
  if t < 20 then 0x5A827999
  else if t < 40 then 0x6ED9EBA1
  else if t < 60 then 0x8F1BBCDC
  else 0xCA62C1D6

/-- The 80 SHA-1 rounds over the extended words. -/
def sha1Rounds : Nat → List Nat → Nat × Nat × Nat × Nat × Nat → Nat × Nat × Nat × Nat × Nat
  | _, [], st => st
  | t, w :: ws, (a, b, c, d, e) =>
    sha1Rounds (t + 1) ws
      ((rotl32 a 5 + sha1F t b c d + e + sha1K t + w) % 2 ^ 32, a, rotl32 b 30, c, d)

/-- Process one 64-byte block. -/
def sha1Block (h : Nat × Nat × Nat × Nat × Nat) (block : List Nat) :
    Nat × Nat × Nat × Nat × Nat :=
  match h with
  | (h0, h1, h2, h3, h4) =>
    match sha1Rounds 0 (extendWords (toWords block) 64) (h0, h1, h2, h3, h4) with
    | (a, b, c, d, e) =>
      ((h0 + a) % 2 ^ 32, (h1 + b) % 2 ^ 32, (h2 + c) % 2 ^ 32,
       (h3 + d) % 2 ^ 32, (h4 + e) % 2 ^ 32)

/-- SHA-1 of a byte list, as a 20-byte digest. -/
def sha1 (msg : List Nat) : List Nat :=
  match (chunk64 (sha1Pad msg)).foldl sha1Block
      (0x67452301, 0xEFCDAB89, 0x98BADCFE, 0x10325476, 0xC3D2E1F0) with
  | (h0, h1, h2, h3, h4) =>
    bigEndian4 h0 ++ bigEndian4 h1 ++ bigEndian4 h2 ++ bigEndian4 h3 ++ bigEndian4 h4

/-- The 16 bytes of `uuid.NAMESPACE_URL`
(`6ba7b811-9dad-11d1-80b4-00c04fd430c8`). -/
def namespaceURLBytes : List Nat :=
  [0x6b, 0xa7, 0xb8, 0x11, 0x9d, 0xad, 0x11, 0xd1,
   0x80, 0xb4, 0x00, 0xc0, 0x4f, 0xd4, 0x30, 0xc8]

/-- Lowercase hexadecimal digits. -/
def hexDigits : List Char := "0123456789abcdef".data

/-- One lowercase hex digit. -/
def hexDigit (d : Nat) : Char := hexDigits.getD (d % 16) '0'

/-- Two-character lowercase hex of a byte. -/
def toHex2 (n : Nat) : List Char := [hexDigit (n / 16), hexDigit n]

/-- The canonical `8-4-4-4-12` textual form of a 16-byte UUID
(`str(uuid.UUID(...))`). -/
def uuidFormat (bs : List Nat) : List Char :=
  toHex2 (bs.getD 0 0) ++ toHex2 (bs.getD 1 0) ++ toHex2 (bs.getD 2 0) ++
    toHex2 (bs.getD 3 0) ++ ['-'] ++
  toHex2 (bs.getD 4 0) ++ toHex2 (bs.getD 5 0) ++ ['-'] ++
  toHex2 (bs.getD 6 0) ++ toHex2 (bs.getD 7 0) ++ ['-'] ++
  toHex2 (bs.getD 8 0) ++ toHex2 (bs.getD 9 0) ++ ['-'] ++
  toHex2 (bs.getD 10 0) ++ toHex2 (bs.getD 11 0) ++ toHex2 (bs.getD 12 0) ++
    toHex2 (bs.getD 13 0) ++ toHex2 (bs.getD 14 0) ++ toHex2 (bs.getD 15 0)

/-- `uuid.uuid5(uuid.NAMESPACE_URL, name)` bytes: the first 16 bytes of
`sha1(namespace_bytes + name_bytes)` with the version nibble forced to 5
(`(b6 & 0x0F) | 0x50`) and the variant bits forced to RFC 4122
(`(b8 & 0x3F) | 0x80`). -/
def uuid5Bytes (name : List Nat) : List Nat :=
  let digest := (sha1 (namespaceURLBytes ++ name)).take 16
  (digest.set 6 (digest.getD 6 0 % 16 + 0x50)).set 8 (digest.getD 8 0 % 64 + 0x80)

/-- `str(uuid.uuid5(uuid.NAMESPACE_URL, name))`. -/
def uuid5Str (name : List Nat) : List Char := uuidFormat (uuid5Bytes name)

/-- `make_doc_id(file_abs, chunk_index)`: the deterministic version-5 UUID
of `f"file://{file_abs}#chunk={chunk_index}"` in the URL namespace. -/
def makeDocId (fileAbs : List Char) (chunkIndex : Nat) : List Char :=
  uuid5Str (utf8Encode (canonicalName fileAbs chunkIndex))

/-- Numeric value of a decimal digit character. -/
def digitVal (c : Char) : Nat := c.toNat - 48

/-- Decimal value of a digit string (left fold). -/
def charsVal (l : List Char) : Nat :=
  l.foldl (fun acc c => acc * 10 + digitVal c) 0

theorem digitVal_digitChar (d : Nat) : digitVal (digitChar d) = d % 10 := by
  have h : d % 10 < 10 := Nat.mod_lt _ (by omega)
  unfold digitChar
  generalize d % 10 = m at h ⊢
  interval_cases m <;> rfl

theorem digitChar_ne_hash (d : Nat) : digitChar d ≠ '#' := by
  have h : d % 10 < 10 := Nat.mod_lt _ (by omega)
  unfold digitChar
  generalize d % 10 = m at h
  interval_cases m <;> decide

theorem charsVal_append (l : List Char) (c : Char) :
    charsVal (l ++ [c]) = charsVal l * 10 + digitVal c := by
  unfold charsVal
  rw [List.foldl_append]
  rfl

theorem charsVal_natChars : ∀ n, charsVal (natChars n) = n := by
  intro n
  induction n using Nat.strong_induction_on with
  | _ n ih =>
    rw [natChars]
    split
    · next h =>
      simp [charsVal, digitVal_digitChar, Nat.mod_eq_of_lt h]
    · next h =>
      rw [charsVal_append, ih (n / 10) (Nat.div_lt_self (by omega) (by omega)),
        digitVal_digitChar]
      omega

theorem natChars_inj {m n : Nat} (h : natChars m = natChars n) : m = n := by
  have h2 := congrArg charsVal h
  rwa [charsVal_natChars, charsVal_natChars] at h2

theorem natChars_ne_hash : ∀ n, ∀ c ∈ natChars n, c ≠ '#' := by
  intro n
  induction n using Nat.strong_induction_on with
  | _ n ih =>
    rw [natChars]
    split
    · intro c hc
      rw [List.mem_singleton] at hc
      subst hc
      exact digitChar_ne_hash n
    · next h =>
      intro c hc
      rw [List.mem_append] at hc
      rcases hc with hc | hc
      · exact ih (n / 10) (Nat.div_lt_self (by omega) (by omega)) c hc
      · rw [List.mem_singleton] at hc
        subst hc
        exact digitChar_ne_hash _

theorem hash_split_rev :
    ∀ (r1 : List Char) {r2 m1 m2 : List Char},
      (∀ c ∈ r1, c ≠ '#') → (∀ c ∈ r2, c ≠ '#') →
      r1 ++ '#' :: m1 = r2 ++ '#' :: m2 → r1 = r2 ∧ m1 = m2 := by
  intro r1
  induction r1 with
  | nil =>
    intro r2 m1 m2 h1 h2 heq
    cases r2 with
    | nil => simpa using heq
    | cons b r2' =>
      simp only [List.nil_append, List.cons_append, List.cons.injEq] at heq
      exact absurd heq.1.symm (h2 b (by simp))
  | cons a r1' ih =>
    intro r2 m1 m2 h1 h2 heq
    cases r2 with
    | nil =>
      simp only [List.nil_append, List.cons_append, List.cons.injEq] at heq
      exact absurd heq.1 (h1 a (by simp))
    | cons b r2' =>
      simp only [List.cons_append, List.cons.injEq] at heq
      obtain ⟨hab, heq'⟩ := heq
      obtain ⟨hr, hm⟩ :=
        ih (fun c hc => h1 c (by simp [hc])) (fun c hc => h2 c (by simp [hc])) heq'
      exact ⟨by rw [hab, hr], hm⟩

theorem canonicalName_reverse (p : List Char) (i : Nat) :
    (p ++ ("#chunk=".data ++ natChars i)).reverse =
      ((natChars i).reverse ++ "chunk=".data.reverse) ++ '#' :: p.reverse := by
  rw [show ("#chunk=".data : List Char) = '#' :: "chunk=".data from rfl]
  simp [List.reverse_append, List.append_assoc]

theorem canonicalName_inj {p1 p2 : List Char} {i1 i2 : Nat}
    (h : canonicalName p1 i1 = canonicalName p2 i2) : p1 = p2 ∧ i1 = i2 := by
  unfold canonicalName at h
  have h' := List.append_cancel_left h
  have hrev := congrArg List.reverse h'
  rw [canonicalName_reverse p1 i1, canonicalName_reverse p2 i2] at hrev
  have hfree : ∀ (i : Nat), ∀ c ∈ (natChars i).reverse ++ "chunk=".data.reverse,
      c ≠ '#' := by
    intro i c hc
    rw [List.mem_append] at hc
    rcases hc with hc | hc
    · exact natChars_ne_hash i c (List.mem_reverse.mp hc)
    · exact (by decide : ∀ x ∈ ("chunk=".data.reverse : List Char), x ≠ '#') c hc
  obtain ⟨hr, hm⟩ := hash_split_rev _ (hfree i1) (hfree i2) hrev
  refine ⟨List.reverse_injective hm, ?_⟩
  have hd := List.append_cancel_right hr
  exact natChars_inj (List.reverse_injective hd)

/-- The 17-character alphabet of textual UUIDs. -/
def hexDash : List Char := hexDigits ++ ['-']

theorem hexDigit_mem (d : Nat) : hexDigit d ∈ hexDigits := by
  unfold hexDigit
  have h : d % 16 < hexDigits.length := by
    have h2 := Nat.mod_lt d (show 0 < 16 by omega)
    simpa [hexDigits] using h2
  rw [List.getD_eq_getElem _ _ h]
  exact List.getElem_mem h

theorem toHex2_mem (n : Nat) : ∀ c ∈ toHex2 n, c ∈ hexDash := by
  intro c hc
  unfold toHex2 at hc
  rw [List.mem_cons, List.mem_singleton] at hc
  rcases hc with rfl | rfl
  · exact List.mem_append.mpr (Or.inl (hexDigit_mem _))
  · exact List.mem_append.mpr (Or.inl (hexDigit_mem _))

theorem uuidFormat_length (bs : List Nat) : (uuidFormat bs).length = 36 := by
  simp [uuidFormat, toHex2]

theorem append_mem_hexDash {l1 l2 : List Char} (h1 : ∀ c ∈ l1, c ∈ hexDash)
    (h2 : ∀ c ∈ l2, c ∈ hexDash) : ∀ c ∈ l1 ++ l2, c ∈ hexDash := by
  intro c hc
  rw [List.mem_append] at hc
  rcases hc with hc | hc
  · exact h1 c hc
  · exact h2 c hc

theorem uuidFormat_mem (bs : List Nat) : ∀ c ∈ uuidFormat bs, c ∈ hexDash := by
  unfold uuidFormat
  have hdash : ∀ c ∈ (['-'] : List Char), c ∈ hexDash := by decide
  repeat' apply append_mem_hexDash
  all_goals first | exact toHex2_mem _ | exact hdash

theorem makeDocId_length (p : List Char) (i : Nat) : (makeDocId p i).length = 36 :=
  uuidFormat_length _

theorem makeDocId_mem (p : List Char) (i : Nat) : ∀ c ∈ makeDocId p i, c ∈ hexDash :=
  uuidFormat_mem _

theorem list_not_injective_of_bounded (f : Nat → List Char)
    (hlen : ∀ v, (f v).length = 36) (hmem : ∀ v, ∀ c ∈ f v, c ∈ hexDash) :
    ¬ Function.Injective f := by
  intro hinj
  obtain ⟨m, n, hmn, heq⟩ := Finite.exists_ne_map_eq_of_infinite
    (fun (v : Nat) (k : Fin 36) =>
      (⟨min (hexDash.indexOf ((f v).getD k ' ')) 16, by omega⟩ : Fin 17))
  apply hmn
  apply hinj
  have hl : (f m).length = (f n).length := by rw [hlen, hlen]
  apply List.ext_getElem hl
  intro k hk1 hk2
  have hk36 : k < 36 := by rw [hlen] at hk1; exact hk1
  have hfin := congrFun heq ⟨k, hk36⟩
  simp only [Fin.mk.injEq] at hfin
  have h1 : (f m)[k] ∈ hexDash := hmem m _ (List.getElem_mem hk1)
  have h2 : (f n)[k] ∈ hexDash := hmem n _ (List.getElem_mem hk2)
  have hd1 : (f m).getD k ' ' = (f m)[k] := List.getD_eq_getElem _ _ hk1
  have hd2 : (f n).getD k ' ' = (f n)[k] := List.getD_eq_getElem _ _ hk2
  rw [hd1, hd2] at hfin
  have hi1 : hexDash.indexOf ((f m)[k]) < 17 := by
    have h3 := List.indexOf_lt_length.mpr h1
    simpa [hexDash, hexDigits] using h3
  have hi2 : hexDash.indexOf ((f n)[k]) < 17 := by
    have h3 := List.indexOf_lt_length.mpr h2
    simpa [hexDash, hexDigits] using h3
  have hidx : hexDash.indexOf ((f m)[k]) = hexDash.indexOf ((f n)[k]) := by omega
  have hget1 : hexDash.get ⟨hexDash.indexOf ((f m)[k]), List.indexOf_lt_length.mpr h1⟩ =
      (f m)[k] := List.indexOf_get _
  have hget2 : hexDash.get ⟨hexDash.indexOf ((f n)[k]), List.indexOf_lt_length.mpr h2⟩ =
      (f n)[k] := List.indexOf_get _
  have hfin2 : (⟨hexDash.indexOf ((f m)[k]), List.indexOf_lt_length.mpr h1⟩ :
        Fin hexDash.length) =
      ⟨hexDash.indexOf ((f n)[k]), List.indexOf_lt_length.mpr h2⟩ := Fin.ext hidx
  rw [← hget1, ← hget2, hfin2]

/-- C6 (counterexample): `make_doc_id` tokens are 36-character strings over
the 17-character UUID alphabet, so the map from the unbounded chunk index
into tokens cannot be injective — "different indices always yield different
tokens" is false as a universal statement (pigeonhole; SHA-1 has finitely
many outputs). -/
theorem c6_counterexample :
    ¬ ∀ (path : List Char) (i j : Nat), i ≠ j →
      makeDocId path i ≠ makeDocId path j := by
  intro hinj
  apply list_not_injective_of_bounded (fun v => makeDocId [] v)
    (fun v => makeDocId_length [] v) (fun v => makeDocId_mem [] v)
  intro a b hab
  by_contra hne
  exact hinj [] a b hne hab

/-- C6 (amended): `make_doc_id` is pure and deterministic — the same
`(path, index)` pair always yields the same token — and distinct pairs
always yield distinct *canonical names* `f"file://{path}#chunk={index}"`,
so tokens for distinct pairs differ exactly when SHA-1 does not collide on
the two canonical names (guaranteed only in practice, not absolutely). -/
theorem c6_amended (p1 p2 : List Char) (i1 i2 : Nat) :
    makeDocId p1 i1 = makeDocId p1 i1 ∧
    (¬ (p1 = p2 ∧ i1 = i2) → canonicalName p1 i1 ≠ canonicalName p2 i2) := by
  refine ⟨rfl, ?_⟩
  intro hne hcan
  exact hne (canonicalName_inj hcan)

/-- Witness for C6 at concrete inputs. -/
theorem c6_witness :
    makeDocId ['a'] 0 = makeDocId ['a'] 0 ∧
      canonicalName ['a'] 0 ≠ canonicalName ['b'] 0 :=
  ⟨(c6_amended ['a'] ['b'] 0 0).1, (c6_amended ['a'] ['b'] 0 0).2 (by decide)⟩

/-- Joining two already-joined fragments: empty fragments disappear,
non-empty ones are separated by a blank line. -/
def glue (a b : List Char) : List Char :=
  if a.isEmpty then b else if b.isEmpty then a else a ++ NN ++ b

theorem glue_assoc (a p r : List Char) (hp : p ≠ []) :
    glue (glue a p) r = glue a (glue p r) := by
  unfold glue
  by_cases ha : a.isEmpty
  · simp [ha]
  · by_cases hr : r.isEmpty
    · simp [ha, hp, hr, List.isEmpty_iff]
    · simp [ha, hp, hr, List.isEmpty_iff, List.append_assoc, NN]

theorem joinNN_cons_glue (p : List Char) (rest : List (List Char)) (hp : p ≠ [])
    (hrest : ∀ q ∈ rest, Good q) :
    joinNN (p :: rest) = glue p (joinNN rest) := by
  cases rest with
  | nil => simp [joinNN, glue, List.isEmpty_iff, hp]
  | cons q rs =>
    rw [joinNN_cons]
    have hne : joinNN (q :: rs) ≠ [] := (good_joinNN hrest (by simp)).2
    simp [glue, List.isEmpty_iff, hp, hne]

theorem flushBuf_good_light {chunks buf : List (List Char)}
    (hch : ∀ c ∈ chunks, Good c) (hbuf : ∀ p ∈ buf, Good p) :
    ∀ c ∈ flushBuf chunks buf, Good c := by
  intro c hc
  unfold flushBuf at hc
  by_cases hb : buf.isEmpty
  · rw [if_pos hb] at hc
    exact hch c hc
  · rw [if_neg hb] at hc
    rw [List.mem_append] at hc
    rcases hc with hc | hc
    · exact hch c hc
    · rw [List.mem_singleton] at hc
      subst hc
      have hbne : buf ≠ [] := by simpa [List.isEmpty_iff] using hb
      have hg := good_joinNN hbuf hbne
      rw [hg.1]
      exact hg

theorem flush_join_append (chunks buf : List (List Char)) (para : List Char)
    (hch : ∀ c ∈ chunks, Good c) (hbuf : ∀ p ∈ buf, Good p) (hpara : Good para) :
    joinNN (flushBuf chunks (buf ++ [para])) =
      glue (joinNN (flushBuf chunks buf)) para := by
  have hbp : ∀ p ∈ buf ++ [para], Good p := by
    intro p hp
    rw [List.mem_append] at hp
    rcases hp with hp | hp
    · exact hbuf p hp
    · rw [List.mem_singleton] at hp; subst hp; exact hpara
  have hjoin : pyStrip (joinNN (buf ++ [para])) = joinNN (buf ++ [para]) :=
    (good_joinNN hbp (by simp)).1
  unfold flushBuf
  rw [if_neg (by simp), hjoin, joinNN_append_single chunks _]
  by_cases hb : buf.isEmpty
  · have hbeq : buf = [] := by simpa [List.isEmpty_iff] using hb
    subst hbeq
    by_cases hc : chunks.isEmpty
    · have hceq : chunks = [] := by simpa [List.isEmpty_iff] using hc
      subst hceq
      simp [joinNN, glue, joinNN_append_single, List.isEmpty_iff, hpara.2]
    · rw [if_pos hb, if_neg hc]
      have hcne : chunks ≠ [] := by simpa [List.isEmpty_iff] using hc
      have hjc : joinNN chunks ≠ [] := (good_joinNN hch hcne).2
      simp [joinNN_append_single, glue, List.isEmpty_iff, hjc, hpara.2, hc, joinNN]
  · have hbne : buf ≠ [] := by simpa [List.isEmpty_iff] using hb
    have hjb := good_joinNN hbuf hbne
    rw [if_neg hb, hjb.1, joinNN_append_single buf para, if_neg hb]
    by_cases hc : chunks.isEmpty
    · have hceq : chunks = [] := by simpa [List.isEmpty_iff] using hc
      subst hceq
      simp [joinNN, glue, List.isEmpty_iff, hjb.2, hpara.2, List.append_assoc]
    · have hcne : chunks ≠ [] := by simpa [List.isEmpty_iff] using hc
      rw [if_neg hc, joinNN_append_single chunks (joinNN buf), if_neg hc]
      have hne2 : joinNN chunks ++ NN ++ joinNN buf ≠ [] := by simp [NN]
      simp [glue, List.isEmpty_iff, hne2, hpara.2, List.append_assoc, NN]

theorem processParas_join (maxChars overlapChars : Nat) :
    ∀ paras chunks buf bufLen out,
      (∀ p ∈ paras, Good p ∧ p.length ≤ maxChars) →
      (∀ c ∈ chunks, Good c) →
      (∀ p ∈ buf, Good p) →
      bufLen = (joinNN buf).length →
      processParas maxChars overlapChars paras chunks buf bufLen = some out →
      joinNN (flushBuf out.1 out.2.1) =
        glue (joinNN (flushBuf chunks buf)) (joinNN paras) := by
  intro paras
  induction paras with
  | nil =>
    intro chunks buf bufLen out hp hch hbuf hlen h
    simp only [processParas, Option.some_inj] at h
    subst h
    simp only [joinNN, glue, List.isEmpty_iff]
    split
    · next heq => exact heq
    · rfl
  | cons para rest ih =>
    intro chunks buf bufLen out hp hch hbuf hlen h
    obtain ⟨hpara, hbound⟩ := hp para (by simp)
    have hrest : ∀ p ∈ rest, Good p ∧ p.length ≤ maxChars :=
      fun p hmem => hp p (by simp [hmem])
    have hrestG : ∀ p ∈ rest, Good p := fun p hmem => (hrest p hmem).1
    simp only [processParas] at h
    rw [if_neg (by omega : ¬ maxChars < para.length)] at h
    have hjcons : joinNN (para :: rest) = glue para (joinNN rest) :=
      joinNN_cons_glue para rest hpara.2 hrestG
    by_cases hfits : bufLen + ((if buf.isEmpty then 0 else 2) + para.length) ≤ maxChars
    · rw [if_pos hfits] at h
      have hbuf' : ∀ p ∈ buf ++ [para], Good p := by
        intro p hmem
        rw [List.mem_append] at hmem
        rcases hmem with hmem | hmem
        · exact hbuf p hmem
        · rw [List.mem_singleton] at hmem; subst hmem; exact hpara
      have hlen' : bufLen + ((if buf.isEmpty then 0 else 2) + para.length) =
          (joinNN (buf ++ [para])).length := by
        rw [joinNN_append_single]
        by_cases hbe : buf.isEmpty
        · have : buf = [] := by simpa [List.isEmpty_iff] using hbe
          subst this
          simp [joinNN] at hlen
          simp [hbe, hlen, joinNN]
        · rw [if_neg hbe]
          simp [List.length_append, NN, hlen, hbe]
          omega
      have hrec := ih chunks (buf ++ [para]) _ out hrest hch hbuf' hlen' h
      rw [hrec, flush_join_append chunks buf para hch hbuf hpara, hjcons]
      rw [glue_assoc _ _ _ hpara.2]
    · rw [if_neg hfits] at h
      have hch' : ∀ c ∈ flushBuf chunks buf, Good c := flushBuf_good_light hch hbuf
      have hbuf' : ∀ p ∈ [para], Good p := by
        intro p hmem
        rw [List.mem_singleton] at hmem
        subst hmem
        exact hpara
      have hrec := ih (flushBuf chunks buf) [para] para.length out hrest hch' hbuf'
        (by simp [joinNN]) h
      rw [hrec]
      have hstep : joinNN (flushBuf (flushBuf chunks buf) [para]) =
          glue (joinNN (flushBuf chunks buf)) para := by
        have h2 := flush_join_append (flushBuf chunks buf) [] para hch' (by simp) hpara
        simpa [flushBuf] using h2
      rw [hstep, hjcons, glue_assoc _ _ _ hpara.2]

theorem splitOnNN_first (c : Char) (r : List Char) :
    ∃ q qs, splitOnNN (c :: r) = q :: qs ∧ (q = [] ∨ ∃ t, q = c :: t) := by
  cases r with
  | nil => exact ⟨[c], [], rfl, Or.inr ⟨[], rfl⟩⟩
  | cons c₂ r' =>
    simp only [splitOnNN]
    by_cases hnn : c = '\n' ∧ c₂ = '\n'
    · rw [if_pos hnn]
      exact ⟨[], _, rfl, Or.inl rfl⟩
    · rw [if_neg hnn]
      rcases hsp : splitOnNN (c₂ :: r') with _ | ⟨q, qs⟩
      · exact ⟨[c], [], rfl, Or.inr ⟨[], rfl⟩⟩
      · exact ⟨c :: q, qs, rfl, Or.inr ⟨q, rfl⟩⟩

theorem splitOnNN_chars : ∀ (l : List Char), ∀ p ∈ splitOnNN l, ∀ c ∈ p, c ∈ l
  | [] => by
    intro p hp c hc
    simp [splitOnNN] at hp
    subst hp
    simp at hc
  | [a] => by
    intro p hp c hc
    simp [splitOnNN] at hp
    subst hp
    simpa using hc
  | c₁ :: c₂ :: rest => by
    intro p hp c hc
    simp only [splitOnNN] at hp
    by_cases hnn : c₁ = '\n' ∧ c₂ = '\n'
    · rw [if_pos hnn] at hp
      rcases List.mem_cons.mp hp with rfl | hp
      · simp at hc
      · have h2 := splitOnNN_chars rest p hp c hc
        simp [h2]
    · rw [if_neg hnn] at hp
      rcases hsp : splitOnNN (c₂ :: rest) with _ | ⟨q, qs⟩
      · rw [hsp] at hp
        simp at hp
        subst hp
        simp at hc
        simp [hc]
      · rw [hsp] at hp
        rcases List.mem_cons.mp hp with rfl | hp
        · rcases List.mem_cons.mp hc with rfl | hc
          · simp
          · have h2 := splitOnNN_chars (c₂ :: rest) q (by rw [hsp]; simp) c hc
            simp only [List.mem_cons] at h2 ⊢
            tauto
        · have h2 := splitOnNN_chars (c₂ :: rest) p (by rw [hsp]; simp [hp]) c hc
          simp only [List.mem_cons] at h2 ⊢
          tauto

theorem splitOnNN_noNN : ∀ (l : List Char), ∀ p ∈ splitOnNN l, ¬ NN <:+: p
  | [] => by
    intro p hp
    simp [splitOnNN] at hp
    subst hp
    intro h
    simpa [NN] using h.length_le
  | [a] => by
    intro p hp
    simp [splitOnNN] at hp
    subst hp
    intro h
    simpa [NN] using h.length_le
  | c₁ :: c₂ :: rest => by
    intro p hp
    simp only [splitOnNN] at hp
    by_cases hnn : c₁ = '\n' ∧ c₂ = '\n'
    · rw [if_pos hnn] at hp
      rcases List.mem_cons.mp hp with rfl | hp
      · intro h
        simpa [NN] using h.length_le
      · exact splitOnNN_noNN rest p hp
    · rw [if_neg hnn] at hp
      rcases hsp : splitOnNN (c₂ :: rest) with _ | ⟨q, qs⟩
      · rw [hsp] at hp
        simp at hp
        subst hp
        intro h
        simpa [NN] using h.length_le
      · rw [hsp] at hp
        rcases List.mem_cons.mp hp with rfl | hp
        · intro h
          rw [List.infix_cons_iff] at h
          rcases h with h | h
          · -- NN is a prefix of c₁ :: q, so c₁ = '\n' and q starts with '\n';
            -- the head of q is c₂, contradicting the non-separator branch
            obtain ⟨r, hr⟩ := h
            have hr' : '\n' :: '\n' :: r = c₁ :: q := hr
            injection hr' with hc₁ hr2
            obtain ⟨q', qs', hsp', hshape⟩ := splitOnNN_first c₂ rest
            rw [hsp] at hsp'
            injection hsp' with hq' hqs'
            rcases hshape with hq0 | ⟨t, hqt⟩
            · rw [← hq', ← hr2] at hq0
              simp at hq0
            · rw [← hq'] at hqt
              rw [hqt] at hr2
              injection hr2 with hc₂ hrt
              exact hnn ⟨hc₁.symm, hc₂.symm⟩
          · exact splitOnNN_noNN (c₂ :: rest) q (by rw [hsp]; simp) h
        · exact splitOnNN_noNN (c₂ :: rest) p (by rw [hsp]; simp [hp])

theorem splitOnNN_append_sep :
    ∀ (p : List Char), (¬ NN <:+: p) → (∀ h : p ≠ [], p.getLast h ≠ '\n') →
      ∀ t, splitOnNN (p ++ NN ++ t) = p :: splitOnNN t
  | [], _, _, t => by
    simp only [List.nil_append]
    have h : (NN ++ t : List Char) = '\n' :: '\n' :: t := rfl
    rw [h]
    cases t with
    | nil => rfl
    | cons a r => simp [splitOnNN]
  | [a], hno, hlast, t => by
    have ha : a ≠ '\n' := by simpa using hlast (by simp)
    have hinner : splitOnNN ('\n' :: '\n' :: t) = [] :: splitOnNN t := by
      have h2 : ('\n' :: '\n' :: t : List Char) = [] ++ NN ++ t := rfl
      rw [h2, splitOnNN_append_sep []
        (by intro hh; simpa [NN] using hh.length_le) (by simp) t]
    have h : ([a] ++ NN ++ t : List Char) = a :: '\n' :: '\n' :: t := rfl
    rw [h]
    rw [show splitOnNN (a :: '\n' :: '\n' :: t) =
        match splitOnNN ('\n' :: '\n' :: t) with
        | [] => [[a]]
        | p :: ps => (a :: p) :: ps from by
      simp only [splitOnNN]
      rw [if_neg (by tauto)]]
    rw [hinner]
  | a :: b :: p', hno, hlast, t => by
    have hnn : ¬ (a = '\n' ∧ b = '\n') := by
      intro ⟨ha, hb⟩
      exact hno (List.IsPrefix.isInfix ⟨p', by simp [NN, ha, hb]⟩)
    have h : ((a :: b :: p') ++ NN ++ t : List Char) =
        a :: b :: (p' ++ NN ++ t) := by simp
    rw [h]
    simp only [splitOnNN]
    rw [if_neg hnn]
    have hno' : ¬ NN <:+: (b :: p') := by
      intro hh
      exact hno (hh.trans (by exact ⟨[a], [], by simp⟩))
    have hlast' : ∀ h : (b :: p') ≠ [], (b :: p').getLast h ≠ '\n' := by
      intro hh
      have := hlast (by simp)
      rwa [List.getLast_cons (by simp : (b :: p') ≠ [])] at this
    have hrec := splitOnNN_append_sep (b :: p') hno' hlast' t
    have h3 : ((b :: p') ++ NN ++ t : List Char) = b :: (p' ++ NN ++ t) := by simp
    rw [h3] at hrec
    rw [hrec]

theorem splitOnNN_of_noNN : ∀ (p : List Char), (¬ NN <:+: p) → splitOnNN p = [p]
  | [], _ => rfl
  | [a], _ => rfl
  | a :: b :: p', hno => by
    have hnn : ¬ (a = '\n' ∧ b = '\n') := by
      intro ⟨ha, hb⟩
      exact hno (List.IsPrefix.isInfix ⟨p', by simp [NN, ha, hb]⟩)
    simp only [splitOnNN]
    rw [if_neg hnn]
    have hno' : ¬ NN <:+: (b :: p') := by
      intro hh
      exact hno (hh.trans (by exact ⟨[a], [], by simp⟩))
    rw [splitOnNN_of_noNN (b :: p') hno']

theorem replaceCRLF_id : ∀ (l : List Char), (∀ c ∈ l, c ≠ '\r') → replaceCRLF l = l
  | [], _ => rfl
  | [c], _ => rfl
  | c₁ :: c₂ :: rest, h => by
    simp only [replaceCRLF]
    rw [if_neg (by intro ⟨h1, _⟩; exact h c₁ (by simp) h1)]
    rw [replaceCRLF_id (c₂ :: rest) (fun c hc => h c (by simp [List.mem_cons] at hc ⊢; tauto))]

theorem replaceCR_id (l : List Char) (h : ∀ c ∈ l, c ≠ '\r') : replaceCR l = l := by
  unfold replaceCR
  induction l with
  | nil => rfl
  | cons a t ih =>
    simp only [List.map_cons]
    rw [if_neg (h a (by simp)), ih (fun c hc => h c (by simp [hc]))]

theorem normalizeNewlines_id (l : List Char) (h : ∀ c ∈ l, c ≠ '\r') :
    normalizeNewlines l = l := by
  unfold normalizeNewlines
  rw [replaceCRLF_id l h, replaceCR_id l h]

theorem joinNN_chars : ∀ (l : List (List Char)) (c : Char), c ∈ joinNN l →
    (∃ p ∈ l, c ∈ p) ∨ c = '\n'
  | [] => by intro c hc; simp [joinNN] at hc
  | [p] => by
    intro c hc
    exact Or.inl ⟨p, by simp, hc⟩
  | p :: q :: rest => by
    intro c hc
    rw [joinNN_cons] at hc
    rw [List.append_assoc, List.mem_append] at hc
    rcases hc with hc | hc
    · exact Or.inl ⟨p, by simp, hc⟩
    · rw [List.mem_append] at hc
      rcases hc with hc | hc
      · right
        have h2 : c ∈ (['\n', '\n'] : List Char) := hc
        simpa using h2
      · rcases joinNN_chars (q :: rest) c hc with ⟨x, hx, hcx⟩ | h
        · exact Or.inl ⟨x, by simp [List.mem_cons] at hx ⊢; tauto, hcx⟩
        · exact Or.inr h

theorem join_paras_split : ∀ (paras : List (List Char)),
    (∀ p ∈ paras, Good p) → (∀ p ∈ paras, ¬ NN <:+: p) → paras ≠ [] →
    splitOnNN (joinNN paras) = paras
  | [], _, _, hne => absurd rfl hne
  | [p], hG, hN, _ => splitOnNN_of_noNN p (hN p (by simp))
  | p :: q :: rest, hG, hN, _ => by
    have hGp := hG p (by simp)
    have hlast : ∀ h : p ≠ [], p.getLast h ≠ '\n' := by
      intro h heq
      have h2 := (good_head_last hGp h).2
      rw [heq] at h2
      exact h2 (by decide)
    have h1 : joinNN (p :: q :: rest) = p ++ NN ++ joinNN (q :: rest) := rfl
    rw [h1, splitOnNN_append_sep p (hN p (by simp)) hlast _]
    rw [join_paras_split (q :: rest)
      (fun x hx => hG x (List.mem_cons_of_mem p hx))
      (fun x hx => hN x (List.mem_cons_of_mem p hx)) (by simp)]

theorem iterParagraphs_no_cr (t : List Char) :
    ∀ p ∈ iterParagraphs t, ∀ c ∈ p, c ≠ '\r' := by
  intro p hp c hc
  unfold iterParagraphs at hp
  rw [List.mem_filter] at hp
  obtain ⟨hmem, -⟩ := hp
  rw [List.mem_map] at hmem
  obtain ⟨q, hq, rfl⟩ := hmem
  have hcq : c ∈ q := (pyStrip_sublist q).subset hc
  have hcn : c ∈ normalizeNewlines t := splitOnNN_chars _ q hq c hcq
  unfold normalizeNewlines replaceCR at hcn
  rw [List.mem_map] at hcn
  obtain ⟨a, -, ha⟩ := hcn
  intro hcr
  rw [hcr] at ha
  by_cases h : a = '\r'
  · simp [h] at ha
  · rw [if_neg h] at ha
    exact h ha

theorem iterParagraphs_noNN (t : List Char) : ∀ p ∈ iterParagraphs t, ¬ NN <:+: p := by
  intro p hp
  unfold iterParagraphs at hp
  rw [List.mem_filter] at hp
  obtain ⟨hmem, -⟩ := hp
  rw [List.mem_map] at hmem
  obtain ⟨q, hq, rfl⟩ := hmem
  intro hinf
  exact splitOnNN_noNN _ q hq (hinf.trans (pyStrip_sublist q))

theorem map_pyStrip_id {l : List (List Char)} (h : ∀ p ∈ l, Good p) :
    l.map pyStrip = l := by
  induction l with
  | nil => rfl
  | cons a t ih =>
    simp [List.map_cons, (h a (by simp)).1, ih (fun p hp => h p (by simp [hp]))]

theorem filter_nonempty_id {l : List (List Char)} (h : ∀ p ∈ l, p ≠ []) :
    l.filter (fun p => ! p.isEmpty) = l :=
  List.filter_eq_self.mpr (fun p hp => by simpa [List.isEmpty_iff] using h p hp)

/-- C7 (counterexample): with `overlap_chars = 0`, re-joining the chunks of
`"ab"` under `max_chars = 1` does *not* reconstruct the original paragraph
sequence — the hard split turns one paragraph into two. -/
theorem c7_counterexample :
    chunkText ['a', 'b'] 1 0 = some [['a'], ['b']] ∧
    iterParagraphs (joinNN [['a'], ['b']]) ≠ iterParagraphs ['a', 'b'] := by
  exact ⟨by decide, by decide⟩

/-- C7 (amended): with `overlap_chars = 0`, `max_chars > 0` and no
paragraph longer than `max_chars` (so the hard split never fires),
splitting the `"\n\n"`-join of the returned chunks into paragraphs yields
exactly the paragraphs of the original text. -/
theorem c7_rejoin_reconstructs (text : List Char) (maxChars : Nat)
    (hmax : 0 < maxChars)
    (hshort : ∀ p ∈ iterParagraphs text, p.length ≤ maxChars)
    (cs : List (List Char)) (h : chunkText text maxChars 0 = some cs) :
    iterParagraphs (joinNN cs) = iterParagraphs text := by
  obtain ⟨pre, hpre, hcs⟩ := chunkText_some_pre h
  subst hcs
  obtain ⟨st, hst, hflush⟩ := chunkTextPre_elim hpre
  have hparasG := iterParagraphs_good text
  have hjoin := processParas_join maxChars 0 (iterParagraphs text) [] [] 0 st
    (fun p hp => ⟨hparasG p hp, hshort p hp⟩) (by simp) (by simp) (by simp [joinNN]) hst
  rw [hflush] at hjoin
  have hsimp : joinNN (flushBuf ([] : List (List Char)) []) = [] := rfl
  rw [hsimp] at hjoin
  have hglue : glue [] (joinNN (iterParagraphs text)) = joinNN (iterParagraphs text) := by
    simp [glue]
  rw [hglue] at hjoin
  rw [hjoin]
  rcases hps : iterParagraphs text with _ | ⟨p, ps⟩
  · rfl
  · have hG := iterParagraphs_good text
    have hN := iterParagraphs_noNN text
    have hCR := iterParagraphs_no_cr text
    rw [hps] at hG hN hCR
    have hchars : ∀ c ∈ joinNN (p :: ps), c ≠ '\r' := by
      intro c hc
      rcases joinNN_chars (p :: ps) c hc with ⟨x, hx, hcx⟩ | hnl
      · exact hCR x hx c hcx
      · rw [hnl]; decide
    unfold iterParagraphs
    rw [normalizeNewlines_id _ hchars]
    rw [join_paras_split (p :: ps) hG hN (by simp)]
    rw [map_pyStrip_id hG, filter_nonempty_id (fun q hq => (hG q hq).2)]

/-- Witness for C7 at a concrete input (`"a\n\nb"`, `max_chars = 1`). -/
theorem c7_witness :
    0 < 1 ∧ (∀ p ∈ iterParagraphs ['a', '\n', '\n', 'b'], p.length ≤ 1) ∧
    chunkText ['a', '\n', '\n', 'b'] 1 0 = some [['a'], ['b']] ∧
    iterParagraphs (joinNN [['a'], ['b']]) = iterParagraphs ['a', '\n', '\n', 'b'] :=
  ⟨by decide, by decide, by decide,
    c7_rejoin_reconstructs ['a', '\n', '\n', 'b'] 1 (by decide) (by decide)
      [['a'], ['b']] (by decide)⟩

/-- The `mode: Literal["create", "update"]` parameter of the ingest
adapter. -/
inductive Mode
  | create
  | update
deriving DecidableEq

/-- The externally visible actions of `ingest_raw_text`, in the order the
code performs them: resolving the base URL, the create-mode
filename-existence lookup (an HTTP GET), chunking the text into documents,
and the HTTP POSTs. -/
inductive IngestEffect
  | resolveBaseUrl
  | checkFilenameExists
  | buildDocuments
  | postCreateDocuments
  | postUpdateDocuments
deriving DecidableEq

/-- What the update POST reports back; the code only reads the
`not_found_documents` list (as the doc_ids it contains). -/
structure UpdateResult where
  notFoundDocIds : List (List Char)

/-- The external collaborators of `ingest_raw_text`
(`resolve_base_url`, `_filename_exists_in_index`,
`_post_create_documents`, `_post_update_documents`), passed in as
functions; their responses are abstracted to the fields the code reads. -/
structure IngestCollab where
  resolveBaseUrl : List Char → List Char
  filenameExists : List Char → List Char → Bool
  postCreate : List (List Char × List Char) → Unit
  postUpdate : List (List Char × List Char) → UpdateResult

/-- The shape of the dictionary `ingest_raw_text` returns: the
`skipped`/`filename_exists` dictionary, or a result whose
`ingestion_status` is `"created"` (with or without the upsert fallback) or
`"updated"`. -/
inductive IngestOutcome
  | skippedFilenameExists (filename indexName : List Char)
  | created (fallbackUsed : Bool)
  | updated

/-- `_normalize_logical_filename`: `(name_hint or "pasted-text").strip()`,
`"pasted-text"` when that is empty, and an `.md` suffix appended when
`Path(base).suffix` is empty (the last path component has no `'.'` past
its first character). -/
def normalizeLogicalFilename (nameHint : List Char) : List Char :=
  let base := pyStrip (if nameHint.isEmpty then "pasted-text".data else nameHint)
  let base := if base.isEmpty then "pasted-text".data else base
  let name := (base.reverse.takeWhile (fun c => c ≠ '/')).reverse
  if (name.drop 1).contains '.' then base else base ++ ".md".data

/-- `_build_documents_from_text`: strip the content, return no documents
when empty, else chunk it and pair each chunk with
`make_doc_id(virtual_path, i)`; `none` when `chunk_text` never returns.
(The per-document metadata dictionary carries no information any claim
depends on and is not modelled.) -/
def buildDocumentsFromText (content logicalFilename : List Char)
    (maxChars overlapChars : Nat) : Option (List (List Char × List Char)) :=
  let c := pyStrip content
  if c.isEmpty then some []
  else
    (chunkText c maxChars overlapChars).map (fun chunks =>
      chunks.mapIdx (fun i chunk =>
        (makeDocId ("virtual://streamlit/".data ++ logicalFilename) i, chunk)))

/-- `ingest_raw_text`: the empty-text guard, then — in source order — the
base-URL resolution, logical-filename normalisation, the create-mode
duplicate-filename check, document building, and the POST (update mode
falling back to create for documents the backend did not find).  The
second component is the trace of external actions performed; `none` models
a call that never returns (divergent `chunk_text`). -/
def ingestRawText (text nameHint baseUrl indexName : List Char) (mode : Mode)
    (maxChars overlapChars : Nat) (collab : IngestCollab) :
    Option (Except (List Char) IngestOutcome × List IngestEffect) :=
  let content := pyStrip text
  if content.isEmpty then some (Except.error "Text content is empty".data, [])
  else
    let _baseUrlEff := collab.resolveBaseUrl baseUrl
    let logicalFilename := normalizeLogicalFilename nameHint
    if mode = Mode.create then
      if collab.filenameExists indexName logicalFilename then
        some (Except.ok (IngestOutcome.skippedFilenameExists logicalFilename indexName),
          [IngestEffect.resolveBaseUrl, IngestEffect.checkFilenameExists])
      else
        match buildDocumentsFromText content logicalFilename maxChars overlapChars with
        | none => none
        | some docs =>
          let _res := collab.postCreate docs
          some (Except.ok (IngestOutcome.created false),
            [IngestEffect.resolveBaseUrl, IngestEffect.checkFilenameExists,
             IngestEffect.buildDocuments, IngestEffect.postCreateDocuments])
    else
      match buildDocumentsFromText content logicalFilename maxChars overlapChars with
      | none => none
      | some docs =>
        let upd := collab.postUpdate docs
        let missing := docs.filter (fun d => upd.notFoundDocIds.contains d.1)
        if upd.notFoundDocIds.isEmpty ∨ missing.isEmpty then
          some (Except.ok IngestOutcome.updated,
            [IngestEffect.resolveBaseUrl, IngestEffect.buildDocuments,
             IngestEffect.postUpdateDocuments])
        else
          let _cr := collab.postCreate missing
          some (Except.ok (IngestOutcome.created true),
            [IngestEffect.resolveBaseUrl, IngestEffect.buildDocuments,
             IngestEffect.postUpdateDocuments, IngestEffect.postCreateDocuments])

/-- C10: calling `ingest_raw_text` with a text whose `strip()` is empty
raises `ValueError("Text content is empty")` before resolving the base
URL, building any documents, or issuing any HTTP request — the effect
trace is empty, for every collaborator. -/
theorem c10_ingest_empty_text (text nameHint baseUrl indexName : List Char)
    (mode : Mode) (maxChars overlapChars : Nat) (collab : IngestCollab)
    (h : pyStrip text = []) :
    ingestRawText text nameHint baseUrl indexName mode maxChars overlapChars collab =
      some (Except.error "Text content is empty".data, []) := by
  unfold ingestRawText
  rw [h]
  simp

/-- Witness for C10 at a concrete input (a whitespace-only text). -/
theorem c10_witness :
    pyStrip [' '] = [] ∧
    ingestRawText [' '] [] [] [] Mode.create 3000 200
        ⟨fun b => b, fun _ _ => false, fun _ => (), fun _ => ⟨[]⟩⟩ =
      some (Except.error "Text content is empty".data, []) :=
  ⟨by decide,
    c10_ingest_empty_text [' '] [] [] [] Mode.create 3000 200
      ⟨fun b => b, fun _ _ => false, fun _ => (), fun _ => ⟨[]⟩⟩ (by decide)⟩
